import Mathlib

/-!
Verification of the tail-biting Viterbi decoder in `src/SDLViterbiDecFix.cpp`.

The C code is shallowly embedded: C arrays become Lean lists (or index
functions for the caller-supplied soft-input buffer), in-place stores become
functional updates, and the `for` loops become structural recursions whose
step functions mirror the loop bodies line by line.  Machine integers are
modelled by `Int`/`Nat`: every intermediate value of the decoder is proved
non-negative and far below `2 ^ 32` wherever the C code converts between
`int` and `unsigned`, so the conversions are value-preserving on all runs the
claims quantify over (the path-metric non-negativity theorem below makes this
precise).  The arithmetic right shift `>> 2` of a signed value is floor
division by `4`, written `Int.fdiv`.
-/

set_option maxRecDepth 4000

/-- Lookup table from `SDLViterbiDecFix.cpp` line 59: branch label for the
upper state transition in each of the 32 butterflies. -/
def labels : List Nat :=
  [0, 1, 3, 2, 3, 2, 0, 1, 0, 1, 3, 2, 3, 2, 0, 1,
   2, 3, 1, 0, 1, 0, 2, 3, 2, 3, 1, 0, 1, 0, 2, 3]

/-- Body of the `dePunct` loop (lines 86-91): each iteration consumes the two
soft inputs at positions `n`, `n + 1` and appends them followed by a zero
placeholder; `iters` counts the remaining loop iterations.  The C loop runs
`n = 0, 2, 4, ...` while `n < codeLen`, i.e. `(codeLen + 1) / 2` times. -/
def dePunctFrom (si1 : Nat → Int) : Nat → Nat → List Int
  | _, 0 => []
  | n, iters + 1 => si1 n :: si1 (n + 1) :: 0 :: dePunctFrom si1 (n + 2) iters

/-- De-puncturing operation (lines 81-92).  The soft input buffer is modelled
as an index function; the output buffer is the returned list. -/
def dePunct (codeLen : Nat) (si1 : Nat → Int) : List Int :=
  dePunctFrom si1 0 ((codeLen + 1) / 2)

/-- Branch metric computation (lines 116-137).  `bit1 = label & 1` and
`bit2 = (label >> 1) & 1` are the two code bits of the label; the metric is
`(2*bit1-1)*soft1 + (2*bit2-1)*soft2`, rounded by `(· + 2) >> 2` (arithmetic
shift, i.e. floor division by 4) and then saturated to `[-31, 31]` by the two
sequential `if` statements of the source. -/
def branchMetric (soft1 soft2 : Int) (label : Nat) : Int :=
  let bit1 : Int := (label % 2 : Nat)
  let bit2 : Int := (label / 2 % 2 : Nat)
  let bm : Int := (2 * bit1 - 1) * soft1 + (2 * bit2 - 1) * soft2
  let bm : Int := Int.fdiv (bm + 2) 4
  let bm : Int := if bm > 31 then 31 else bm
  let bm : Int := if bm < -31 then -31 else bm
  bm

/-- Add-compare-select (lines 166-189).  Returns the surviving metric and the
one-bit survivor indicator: `cm0 > cm1` selects the first predecessor
(survivor 0), otherwise — ties included — the second (survivor 1).  The C
code stores the winner through `(unsigned)` casts; those casts are
value-preserving because the selected metric is non-negative on every
reachable state (proved below), so the embedding keeps plain `Int`. -/
def ACS (pm00 pm01 : Int) (bm0 bm1 : Int) : Int × Nat :=
  let cm0 : Int := pm00 + bm0
  let cm1 : Int := pm01 + bm1
  if cm0 > cm1 then (cm0, 0) else (cm1, 1)

/-- Body of the branch-metric loop (lines 253-260): iteration `t` (source
index `n = 2*t`) computes the metrics for labels 11 and 01 from the soft pair
`si2[2t], si2[2t+1]` and stores, in source order, `BMBuff[4t] = -bm11`,
`BMBuff[4t+1] = bm01`, `BMBuff[4t+2] = -bm01`, `BMBuff[4t+3] = bm11`. -/
def bmBuffFrom (si2 : List Int) : Nat → Nat → List Int
  | _, 0 => []
  | t, iters + 1 =>
    let s1 := si2.getD (2 * t) 0
    let s2 := si2.getD (2 * t + 1) 0
    let bm3 := branchMetric s1 s2 3
    let bm1 := branchMetric s1 s2 1
    [-bm3, bm1, -bm1, bm3] ++ bmBuffFrom si2 (t + 1) iters

/-- Branch metric buffer (lines 253-260): the loop runs for
`n = 0, 2, ..., n < 2*infoLen - 1`, i.e. `infoLen` iterations. -/
def bmBuff (infoLen : Nat) (si2 : List Int) : List Int :=
  bmBuffFrom si2 0 infoLen

/-- State of the Viterbi recursion loop (lines 268-331): the current
("old") path-metric bank, the survivor memory, the wrapping time index `n`,
the survivor write pointer and the normalization alert bit.  The two
path-metric banks of the C code (`old`/`newpm` halves of `PMBuff`, swapped
each step) are modelled by `pm` holding the current bank; each step reads
only the old bank and writes every slot of the new bank exactly once, so the
bank swap is the functional update below.  The C code leaves `SMBuff`
uninitialized; the model starts it at zeros, and the survivor-memory
alignment theorem below shows every cell the traceback reads was overwritten
by a recursion step, so the initial contents are unobservable. -/
structure VitState where
  pm : List Int
  sm : List Nat
  n : Nat
  writePnt : Nat
  normAlert : Nat
  deriving Repr, DecidableEq

/-- One butterfly of the recursion body (lines 280-314), presented per
successor state: successor `s` belongs to the butterfly `s00 = s / 2`
(`s10 = s00 << 1`, `s11 = s10 | 1`), with predecessors `s00` and
`s01 = 32 | s00`; the branch metric is `BMBuff[4n + labels[s00]]` and the two
ACS calls use `(bm, -bm)` for `s10` (even `s`) and `(-bm, bm)` for `s11`
(odd `s`). -/
def butterfly (bmb : List Int) (n : Nat) (pmOld : List Int) (pmOffs : Int)
    (s : Nat) : Int × Nat :=
  let s00 := s / 2
  let pm00 := pmOld.getD s00 0 - pmOffs
  let pm01 := pmOld.getD (32 + s00) 0 - pmOffs
  let bm := bmb.getD (4 * n + labels.getD s00 0) 0
  if s % 2 = 0 then ACS pm00 pm01 bm (-bm) else ACS pm00 pm01 (-bm) bm

/-- One step `k` of the Viterbi recursion (loop body, lines 272-331).
`pmOffs` is the literal `0` of source line 277 (`// DISABLE NORMALIZATION`).
The survivor row is spliced into the flat survivor memory at `writePnt`;
`n` wraps at `infoLen` (lines 322-324) and `writePnt` advances by 64 once
`k >= L + 6` (lines 328-329).  `normAlert` ends a step at 1 iff every new
metric exceeded 255 (line 308). -/
def vitStep (infoLen L : Nat) (bmb : List Int) (k : Nat) (st : VitState) :
    VitState :=
  let pmOffs : Int := 0
  let entries := (List.range 64).map (butterfly bmb st.n st.pm pmOffs)
  { pm := entries.map Prod.fst
    sm := st.sm.take st.writePnt ++ entries.map Prod.snd ++
      st.sm.drop (st.writePnt + 64)
    n := if st.n + 1 = infoLen then 0 else st.n + 1
    writePnt := if L + 6 ≤ k then st.writePnt + 64 else st.writePnt
    normAlert := if entries.all (fun e => 255 < e.1) then 1 else 0 }

/-- Initial recursion state (lines 262-271): all 64 path metrics zero,
survivor memory of `traceLen * 64` cells, `n = 0`, `writePnt = 0`,
`normAlert = 0`. -/
def vitInit (infoLen L : Nat) : VitState :=
  { pm := List.replicate 64 0
    sm := List.replicate ((infoLen + L - 6) * 64) 0
    n := 0
    writePnt := 0
    normAlert := 0 }

/-- State after `m` recursion steps. -/
def vitRun (infoLen L : Nat) (bmb : List Int) : Nat → VitState
  | 0 => vitInit infoLen L
  | m + 1 => vitStep infoLen L bmb m (vitRun infoLen L bmb m)

/-- Survivor row emitted by recursion step `m` (the 64 survivor bits stored
at `SMBuff[writePnt + s]` during that step). -/
def survRow (infoLen L : Nat) (bmb : List Int) (m : Nat) : List Nat :=
  ((List.range 64).map
    (butterfly bmb (vitRun infoLen L bmb m).n (vitRun infoLen L bmb m).pm 0)).map
    Prod.snd

/-- Best-state scan (lines 334-343): `pmMax` starts at 0 and is replaced only
on a strictly greater metric, so the lowest-indexed maximal state wins. -/
def bestState (pm : List Int) : Nat :=
  ((List.range 64).foldl
    (fun acc s => if pm.getD s 0 > acc.1 then (pm.getD s 0, s) else acc)
    ((0 : Int), (0 : Nat))).2

/-- State of the traceback loop (lines 345-361): current trellis state,
data write pointer, the data buffer, and the log of `(step, position, bit)`
stores performed on `dataBuff` (the C code writes through a raw pointer; the
log records exactly those writes, so out-of-range positions are visible). -/
structure TBState where
  s : Nat
  dataPnt : Nat
  data : List Nat
  writes : List (Nat × Nat × Nat)
  deriving Repr, DecidableEq

/-- One traceback step `k` (loop body, lines 350-361): read the survivor bit
at `readPnt + s` where `readPnt = (traceLen - 1 - k) * 64` (the C code keeps
`readPnt` in a variable decremented by 64 each step), reconstruct the
predecessor state `(bit << 5) | (s >> 1)`, and once `k >= L - 6` release the
bit at `dataPnt`, decrementing `dataPnt` circularly.  The C comparison
`k >= L - 6` is on unsigned values, so for `L < 6` it is `k >= (huge)`,
i.e. false; the guard `6 ≤ L` reproduces that. -/
def tbStep (infoLen L traceLen : Nat) (sm : List Nat) (k : Nat)
    (st : TBState) : TBState :=
  let bit := sm.getD ((traceLen - 1 - k) * 64 + st.s) 0
  let s2 := bit * 32 + st.s / 2
  if 6 ≤ L ∧ L - 6 ≤ k then
    { s := s2
      dataPnt := if st.dataPnt = 0 then infoLen - 1 else st.dataPnt - 1
      data := st.data.set st.dataPnt bit
      writes := st.writes ++ [(k, st.dataPnt, bit)] }
  else
    { st with s := s2 }

/-- Traceback state after `k` steps, starting from state `s0` with
`dataPnt = L - 1` (line 349) over the caller-supplied buffer `data0`. -/
def tbRun (infoLen L traceLen : Nat) (sm : List Nat) (s0 : Nat)
    (data0 : List Nat) : Nat → TBState
  | 0 => { s := s0, dataPnt := L - 1, data := data0, writes := [] }
  | k + 1 => tbStep infoLen L traceLen sm k
      (tbRun infoLen L traceLen sm s0 data0 k)

/-- The decoder `viterbi` (lines 216-368): de-puncture, branch metrics,
`numStep = infoLen + 2L` recursion steps, best-state scan, and
`traceLen = infoLen + L - 6` traceback steps.  Returns the final traceback
state (decoded buffer plus write log). -/
def viterbi (infoLen codeLen : Nat) (si1 : Nat → Int) (L : Nat)
    (data0 : List Nat) : TBState :=
  let numStep := infoLen + 2 * L
  let traceLen := infoLen + L - 6
  let si2 := dePunct codeLen si1
  let bmb := bmBuff infoLen si2
  let fin := vitRun infoLen L bmb numStep
  tbRun infoLen L traceLen fin.sm (bestState fin.pm) data0 traceLen

/-- Recursion state of the normalization-free variant: identical to
`VitState` but without the `normAlert` bit. -/
structure VitStateNN where
  pm : List Int
  sm : List Nat
  n : Nat
  writePnt : Nat
  deriving Repr, DecidableEq

/-- Butterfly of the normalization-free variant: old metrics are read with no
offset subtraction. -/
def butterflyNN (bmb : List Int) (n : Nat) (pmOld : List Int) (s : Nat) :
    Int × Nat :=
  let s00 := s / 2
  let pm00 := pmOld.getD s00 0
  let pm01 := pmOld.getD (32 + s00) 0
  let bm := bmb.getD (4 * n + labels.getD s00 0) 0
  if s % 2 = 0 then ACS pm00 pm01 bm (-bm) else ACS pm00 pm01 (-bm) bm

/-- Recursion step of the variant with the `normAlert` computation and the
offset subtraction removed entirely. -/
def vitStepNN (infoLen L : Nat) (bmb : List Int) (k : Nat) (st : VitStateNN) :
    VitStateNN :=
  let entries := (List.range 64).map (butterflyNN bmb st.n st.pm)
  { pm := entries.map Prod.fst
    sm := st.sm.take st.writePnt ++ entries.map Prod.snd ++
      st.sm.drop (st.writePnt + 64)
    n := if st.n + 1 = infoLen then 0 else st.n + 1
    writePnt := if L + 6 ≤ k then st.writePnt + 64 else st.writePnt }

/-- Runs of the normalization-free variant. -/
def vitRunNN (infoLen L : Nat) (bmb : List Int) : Nat → VitStateNN
  | 0 => { pm := List.replicate 64 0, sm := List.replicate ((infoLen + L - 6) * 64) 0,
           n := 0, writePnt := 0 }
  | m + 1 => vitStepNN infoLen L bmb m (vitRunNN infoLen L bmb m)

/-- Decoder built on the normalization-free variant. -/
def viterbiNN (infoLen codeLen : Nat) (si1 : Nat → Int) (L : Nat)
    (data0 : List Nat) : TBState :=
  let numStep := infoLen + 2 * L
  let traceLen := infoLen + L - 6
  let si2 := dePunct codeLen si1
  let bmb := bmBuff infoLen si2
  let fin := vitRunNN infoLen L bmb numStep
  tbRun infoLen L traceLen fin.sm (bestState fin.pm) data0 traceLen

/-- Position in `dataBuff` written by the `i`-th released traceback bit:
`dataPnt` starts at `L - 1` and is decremented circularly, wrapping from 0 to
`infoLen - 1` (lines 349, 355-358). -/
def tbPos (infoLen L i : Nat) : Nat :=
  if i < L then L - 1 - i else infoLen + L - 1 - i

/-- Survivor bit read by traceback step `k`. -/
def tbBit (infoLen L traceLen : Nat) (sm : List Nat) (s0 : Nat)
    (data0 : List Nat) (k : Nat) : Nat :=
  sm.getD ((traceLen - 1 - k) * 64 +
    (tbRun infoLen L traceLen sm s0 data0 k).s) 0

/-! ### Basic facts about the arithmetic primitives -/

/-- Every branch metric lies in the saturated range `[-31, 31]`. -/
theorem branchMetric_bounds (s1 s2 : Int) (c : Nat) :
    -31 ≤ branchMetric s1 s2 c ∧ branchMetric s1 s2 c ≤ 31 := by
  simp only [branchMetric]
  split_ifs <;> omega

/-- The sequential clamping of `branchMetric` equals symmetric saturation of
the rounded raw metric. -/
theorem branchMetric_eq_clamp (s1 s2 : Int) (c : Nat) :
    branchMetric s1 s2 c =
      max (-31) (min 31 (Int.fdiv ((2 * ((c % 2 : Nat) : Int) - 1) * s1 +
        (2 * ((c / 2 % 2 : Nat) : Int) - 1) * s2 + 2) 4)) := by
  simp only [branchMetric, max_def, min_def]
  split_ifs <;> omega

/-- The selected ACS metric is one of the two candidate sums and dominates
both. -/
theorem ACS_metric_cases (a b x y : Int) :
    ((ACS a b x y).1 = a + x ∨ (ACS a b x y).1 = b + y) ∧
    a + x ≤ (ACS a b x y).1 ∧ b + y ≤ (ACS a b x y).1 := by
  simp only [ACS]
  split_ifs <;> simp <;> omega

/-- The ACS survivor indicator is zero or one. -/
theorem ACS_surv_le_one (a b x y : Int) : (ACS a b x y).2 ≤ 1 := by
  simp only [ACS]
  split_ifs <;> simp

/-! ### C3: ACS tie-break contract -/

/-- C3: with candidate metrics `cm0 = pm00 + bm0` and `cm1 = pm01 + bm1`,
`ACS` returns survivor 0 and metric `cm0` when `cm0 > cm1` strictly, and
otherwise (`cm1 ≥ cm0`, ties included) survivor 1 and metric `cm1`; in
particular equal candidate sums always yield survivor 1. -/
theorem ACS_tie_break_contract (pm00 pm01 bm0 bm1 : Int) :
    (pm01 + bm1 < pm00 + bm0 → ACS pm00 pm01 bm0 bm1 = (pm00 + bm0, 0)) ∧
    (pm00 + bm0 ≤ pm01 + bm1 → ACS pm00 pm01 bm0 bm1 = (pm01 + bm1, 1)) ∧
    ACS pm00 pm00 bm0 bm0 = (pm00 + bm0, 1) := by
  refine ⟨fun h => ?_, fun h => ?_, ?_⟩ <;> simp only [ACS]
  · rw [if_pos h]
  · rw [if_neg (by omega)]
  · rw [if_neg (lt_irrefl _)]

/-- Witness for C3 at concrete inputs: a strict win for the first
predecessor, a strict win for the second, and a tie resolving to 1. -/
theorem ACS_tie_break_contract_witness :
    ACS 5 3 1 1 = (6, 0) ∧ ACS 3 5 1 1 = (6, 1) ∧ ACS 4 4 2 2 = (6, 1) :=
  ⟨(ACS_tie_break_contract 5 3 1 1).1 (by decide),
   (ACS_tie_break_contract 3 5 1 1).2.1 (by decide),
   (ACS_tie_break_contract 4 4 2 2).2.2⟩

/-! ### C4: branch metric fixed-point contract -/

/-- C4: `branchMetric` computes the antipodal raw metric from the two label
bits, rounds it by `(raw + 2) >> 2` (arithmetic shift, i.e. floor division by
4), and saturates symmetrically to `[-31, 31]`; in particular
`branchMetric 127 127 3 = 31` and `branchMetric (-128) (-128) 3 = -31`. -/
theorem branchMetric_fixed_point_contract (soft1 soft2 : Int) (label : Nat) :
    branchMetric soft1 soft2 label =
      max (-31) (min 31 (Int.fdiv ((2 * ((label % 2 : Nat) : Int) - 1) * soft1 +
        (2 * ((label / 2 % 2 : Nat) : Int) - 1) * soft2 + 2) 4)) ∧
    branchMetric 127 127 3 = 31 ∧ branchMetric (-128) (-128) 3 = -31 :=
  ⟨branchMetric_eq_clamp soft1 soft2 label, by decide, by decide⟩

/-! ### C5: branch metric symmetry -/

/-- Saturated rounded metrics of two raw values summing to zero (their
biased numerators sum to 4) add up to 0 or 1: the `+2`-biased floor shift is
an exact negation except when the biased value is a multiple of 4. -/
theorem clamp_pair (x y : Int) (h : x + y = 4) :
    (max (-31) (min 31 (x.fdiv 4)) + max (-31) (min 31 (y.fdiv 4)) = 0) ∨
    (max (-31) (min 31 (x.fdiv 4)) + max (-31) (min 31 (y.fdiv 4)) = 1) := by
  rw [Int.fdiv_eq_ediv _ (by norm_num), Int.fdiv_eq_ediv _ (by norm_num)]
  simp only [max_def, min_def]
  split_ifs <;> omega

/-- Normalized form of the metric for label 3 (code bits 11). -/
theorem branchMetric_three (s1 s2 : Int) :
    branchMetric s1 s2 3 = max (-31) (min 31 ((s1 + s2 + 2).fdiv 4)) := by
  rw [branchMetric_eq_clamp]
  norm_num

/-- Normalized form of the metric for label 0 (code bits 00). -/
theorem branchMetric_zero (s1 s2 : Int) :
    branchMetric s1 s2 0 = max (-31) (min 31 ((-s1 - s2 + 2).fdiv 4)) := by
  rw [branchMetric_eq_clamp]
  norm_num
  try ring_nf

/-- Normalized form of the metric for label 1 (code bits 01). -/
theorem branchMetric_one (s1 s2 : Int) :
    branchMetric s1 s2 1 = max (-31) (min 31 ((s1 - s2 + 2).fdiv 4)) := by
  rw [branchMetric_eq_clamp]
  norm_num
  try ring_nf

/-- Normalized form of the metric for label 2 (code bits 10). -/
theorem branchMetric_two (s1 s2 : Int) :
    branchMetric s1 s2 2 = max (-31) (min 31 ((-s1 + s2 + 2).fdiv 4)) := by
  rw [branchMetric_eq_clamp]
  norm_num
  try ring_nf

/-- Index formula for the branch-metric buffer: entry `4*u + c` of the chunk
list starting at time `t` holds the label-`c` metric of the soft pair at time
`t + u`. -/
theorem bmBuffFrom_getD (si2 : List Int) :
    ∀ iters t u c, c < 4 →
      (bmBuffFrom si2 t iters).getD (4 * u + c) 0 =
        if u < iters then
          (let s1 := si2.getD (2 * (t + u)) 0
           let s2 := si2.getD (2 * (t + u) + 1) 0
           if c = 0 then -(branchMetric s1 s2 3)
           else if c = 1 then branchMetric s1 s2 1
           else if c = 2 then -(branchMetric s1 s2 1)
           else branchMetric s1 s2 3)
        else 0 := by
  intro iters
  induction iters with
  | zero => intro t u c _; simp [bmBuffFrom]
  | succ it ih =>
    intro t u c hc
    match u with
    | 0 =>
      interval_cases c <;>
        simp [bmBuffFrom, List.cons_append, List.nil_append, List.getD_cons_zero,
          List.getD_cons_succ]
    | u + 1 =>
      rw [show 4 * (u + 1) + c = 4 * u + c + 1 + 1 + 1 + 1 by ring]
      simp only [bmBuffFrom, List.cons_append, List.nil_append, List.getD_cons_succ]
      rw [ih (t + 1) u c hc, show t + 1 + u = t + (u + 1) from by omega]
      simp only [Nat.add_lt_add_iff_right]

/-- C5 counterexample: at `soft1 = soft2 = 1` the metric for label 3 is 1
(`(1+1+2) >> 2 = 1`) while the metric for label 0 is 0 (`(-1-1+2) >> 2 = 0`),
so `branchMetric` is not an exact negation across complementary labels. -/
theorem branch_metric_symmetry_ce :
    ¬ (branchMetric 1 1 3 = -branchMetric 1 1 0 ∧
       branchMetric 1 1 1 = -branchMetric 1 1 2) := by decide

/-- C5 amended: `branchMetric` negates across complementary labels only up to
a rounding excess of one — the two metrics sum to 0 or 1 (for both the 11/00
and the 01/10 pairs) — while the branch-metric table built inside `viterbi`
stores exact negations by construction (`BMBuff[4t] = -BMBuff[4t+3]`,
`BMBuff[4t+2] = -BMBuff[4t+1]`). -/
theorem branch_metric_symmetry_amended (soft1 soft2 : Int) :
    (branchMetric soft1 soft2 3 + branchMetric soft1 soft2 0 = 0 ∨
     branchMetric soft1 soft2 3 + branchMetric soft1 soft2 0 = 1) ∧
    (branchMetric soft1 soft2 1 + branchMetric soft1 soft2 2 = 0 ∨
     branchMetric soft1 soft2 1 + branchMetric soft1 soft2 2 = 1) ∧
    (∀ infoLen : Nat, ∀ si2 : List Int, ∀ t : Nat, t < infoLen →
      (bmBuff infoLen si2).getD (4 * t) 0 = -((bmBuff infoLen si2).getD (4 * t + 3) 0) ∧
      (bmBuff infoLen si2).getD (4 * t + 2) 0 = -((bmBuff infoLen si2).getD (4 * t + 1) 0)) := by
  refine ⟨?_, ?_, ?_⟩
  · rw [branchMetric_three, branchMetric_zero]
    exact clamp_pair _ _ (by ring)
  · rw [branchMetric_one, branchMetric_two]
    exact clamp_pair _ _ (by ring)
  · intro infoLen si2 t ht
    have h0 := bmBuffFrom_getD si2 infoLen 0 t 0 (by norm_num)
    have h1 := bmBuffFrom_getD si2 infoLen 0 t 1 (by norm_num)
    have h2 := bmBuffFrom_getD si2 infoLen 0 t 2 (by norm_num)
    have h3 := bmBuffFrom_getD si2 infoLen 0 t 3 (by norm_num)
    simp only [Nat.zero_add, Nat.add_zero] at h0 h1 h2 h3
    unfold bmBuff
    rw [h0, h1, h2, h3]
    simp [ht]

/-- Witness for the amended C5 at a concrete input. -/
theorem branch_metric_symmetry_amended_witness :
    (branchMetric 1 1 3 + branchMetric 1 1 0 = 0 ∨
     branchMetric 1 1 3 + branchMetric 1 1 0 = 1) ∧
    0 < 1 ∧
    (bmBuff 1 [1, 1]).getD 0 0 = -((bmBuff 1 [1, 1]).getD 3 0) :=
  ⟨(branch_metric_symmetry_amended 1 1).1, by decide,
   ((branch_metric_symmetry_amended 1 1).2.2 1 [1, 1] 0 (by decide)).1⟩

/-! ### C6: de-puncture length law -/

/-- Each `dePunct` loop iteration emits exactly three output samples. -/
theorem dePunctFrom_length (si1 : Nat → Int) :
    ∀ iters n, (dePunctFrom si1 n iters).length = 3 * iters := by
  intro iters
  induction iters with
  | zero => intro n; simp [dePunctFrom]
  | succ it ih => intro n; simp [dePunctFrom, ih]; ring

/-- Index formula for the de-punctured stream: position `3*q + c` of the
chunk list starting at input index `n` copies input `n + 2*q + c` for
`c ∈ {0, 1}` and is the zero placeholder for `c = 2`. -/
theorem dePunctFrom_getD (si1 : Nat → Int) :
    ∀ iters n q c, c < 3 →
      (dePunctFrom si1 n iters).getD (3 * q + c) 0 =
        if q < iters then (if c = 2 then 0 else si1 (n + 2 * q + c)) else 0 := by
  intro iters
  induction iters with
  | zero => intro n q c _; simp [dePunctFrom]
  | succ it ih =>
    intro n q c hc
    match q with
    | 0 =>
      interval_cases c <;> simp [dePunctFrom, List.getD_cons_zero, List.getD_cons_succ]
    | q + 1 =>
      rw [show 3 * (q + 1) + c = 3 * q + c + 1 + 1 + 1 by ring]
      simp only [dePunctFrom, List.getD_cons_succ]
      rw [ih (n + 2) q c hc, show n + 2 + 2 * q + c = n + 2 * (q + 1) + c from by omega]
      simp only [Nat.add_lt_add_iff_right]

/-- C6: for a valid pair (`codeLen` even, `3 * (codeLen/2) = 2 * infoLen`),
`dePunct` emits exactly `2 * infoLen` samples; every position at index
`2 mod 3` is zero, and every other position is the verbatim copy of input
sample `2*(j/3) + (j%3)` — i.e. the output pointer advances by 3 for every 2
input samples consumed. -/
theorem dePunct_length_law (infoLen codeLen : Nat) (si1 : Nat → Int)
    (hev : codeLen % 2 = 0) (hc : 3 * (codeLen / 2) = 2 * infoLen) :
    (dePunct codeLen si1).length = 2 * infoLen ∧
    (∀ j, j % 3 = 2 → (dePunct codeLen si1).getD j 0 = 0) ∧
    (∀ j, j < 2 * infoLen → j % 3 ≠ 2 →
      (dePunct codeLen si1).getD j 0 = si1 (2 * (j / 3) + j % 3)) := by
  have hiter : (codeLen + 1) / 2 = codeLen / 2 := by omega
  refine ⟨?_, ?_, ?_⟩
  · rw [dePunct, dePunctFrom_length, hiter, hc]
  · intro j hj
    have hj' : j = 3 * (j / 3) + j % 3 := by omega
    rw [dePunct, hiter, hj', hj, dePunctFrom_getD si1 _ 0 _ 2 (by norm_num)]
    simp
  · intro j hlt hj
    have hj' : j = 3 * (j / 3) + j % 3 := by omega
    have hq : j / 3 < codeLen / 2 := by omega
    conv in (dePunct codeLen si1).getD j 0 => rw [hj']
    rw [dePunct, hiter, dePunctFrom_getD si1 _ 0 _ _ (by omega)]
    rw [if_pos hq, if_neg hj, Nat.zero_add]

/-- Witness for C6 at `infoLen = 3: codeLen = 4`. -/
theorem dePunct_length_law_witness :
    4 % 2 = 0 ∧ 3 * (4 / 2) = 2 * 3 ∧
    (dePunct 4 (fun i => (i : Int))).length = 2 * 3 ∧
    (dePunct 4 (fun i => (i : Int))).getD 2 0 = 0 ∧
    (dePunct 4 (fun i => (i : Int))).getD 4 0 = ((3 : Nat) : Int) :=
  ⟨by decide, by decide,
   (dePunct_length_law 3 4 _ (by decide) (by decide)).1,
   (dePunct_length_law 3 4 _ (by decide) (by decide)).2.1 2 (by decide),
   (dePunct_length_law 3 4 _ (by decide) (by decide)).2.2 4 (by decide) (by decide)⟩

/-! ### Generic indexing lemmas for the recursion state -/

/-- Reading a mapped range at `j` gives `g j` below the bound and the default
above it. -/
theorem getD_map_range {α : Type} (g : Nat → α) (n j : Nat) (d : α) :
    ((List.range n).map g).getD j d = if j < n then g j else d := by
  rcases Nat.lt_or_ge j n with h | h
  · rw [List.getD_eq_getElem _ _ (by simpa using h), List.getElem_map,
      List.getElem_range, if_pos h]
  · rw [List.getD_eq_default _ _ (by simpa using h), if_neg (by omega)]

/-- Reading a replicated list gives the replicated value or the default. -/
theorem getD_replicate {α : Type} (a : α) (n j : Nat) (d : α) :
    (List.replicate n a).getD j d = if j < n then a else d := by
  rcases Nat.lt_or_ge j n with h | h
  · rw [List.getD_eq_getElem _ _ (by simpa using h), List.getElem_replicate,
      if_pos h]
  · rw [List.getD_eq_default _ _ (by simpa using h), if_neg (by omega)]

/-- Bounded entries give bounded reads (the default 0 is inside the range). -/
theorem getD_bounds_of_forall_mem {l : List Int}
    (h : ∀ x ∈ l, -31 ≤ x ∧ x ≤ 31) (j : Nat) :
    -31 ≤ l.getD j 0 ∧ l.getD j 0 ≤ 31 := by
  rcases Nat.lt_or_ge j l.length with hj | hj
  · rw [List.getD_eq_getElem _ _ hj]
    exact h _ (List.getElem_mem hj)
  · rw [List.getD_eq_default _ _ hj]
    norm_num

/-- All entries of the branch-metric buffer lie in `[-31, 31]`. -/
theorem bmBuffFrom_mem_bounds (si2 : List Int) :
    ∀ iters t x, x ∈ bmBuffFrom si2 t iters → -31 ≤ x ∧ x ≤ 31 := by
  intro iters
  induction iters with
  | zero => intro t x hx; simp [bmBuffFrom] at hx
  | succ it ih =>
    intro t x hx
    simp only [bmBuffFrom, List.cons_append, List.nil_append, List.mem_cons] at hx
    rcases hx with h | h | h | h | h
    · have := branchMetric_bounds (si2.getD (2 * t) 0) (si2.getD (2 * t + 1) 0) 3
      omega
    · have := branchMetric_bounds (si2.getD (2 * t) 0) (si2.getD (2 * t + 1) 0) 1
      omega
    · have := branchMetric_bounds (si2.getD (2 * t) 0) (si2.getD (2 * t + 1) 0) 1
      omega
    · have := branchMetric_bounds (si2.getD (2 * t) 0) (si2.getD (2 * t + 1) 0) 3
      omega
    · exact ih (t + 1) x h

/-- Every read of the branch-metric buffer lies in `[-31, 31]`. -/
theorem bmBuff_getD_bounds (infoLen : Nat) (si2 : List Int) (j : Nat) :
    -31 ≤ (bmBuff infoLen si2).getD j 0 ∧ (bmBuff infoLen si2).getD j 0 ≤ 31 :=
  getD_bounds_of_forall_mem (fun x hx => bmBuffFrom_mem_bounds si2 infoLen 0 x hx) j

/-! ### C8: path metric range -/

/-- Path metrics stay non-negative and grow by at most 31 per step, for any
branch-metric buffer whose reads lie in `[-31, 31]`. -/
theorem vitRun_pm_bounds (infoLen L : Nat) (bmb : List Int)
    (hbm : ∀ j, -31 ≤ bmb.getD j 0 ∧ bmb.getD j 0 ≤ 31) :
    ∀ m s, 0 ≤ (vitRun infoLen L bmb m).pm.getD s 0 ∧
      (vitRun infoLen L bmb m).pm.getD s 0 ≤ 31 * m := by
  intro m
  induction m with
  | zero =>
    intro s
    simp only [vitRun, vitInit]
    rw [getD_replicate]
    split_ifs <;> omega
  | succ m ih =>
    intro s
    have hstep : (vitRun infoLen L bmb (m + 1)).pm =
        (List.range 64).map
          (fun s => (butterfly bmb (vitRun infoLen L bmb m).n
            (vitRun infoLen L bmb m).pm 0 s).1) := by
      show (vitStep infoLen L bmb m (vitRun infoLen L bmb m)).pm = _
      simp only [vitStep, List.map_map]
      rfl
    rw [hstep, getD_map_range]
    split_ifs with hs64
    · have hA := ih (s / 2)
      have hB := ih (32 + s / 2)
      have hbmv := hbm (4 * (vitRun infoLen L bmb m).n +
        labels.getD (s / 2) 0)
      simp only [butterfly, sub_zero]
      split_ifs with hpar
      · have hc := ACS_metric_cases ((vitRun infoLen L bmb m).pm.getD (s / 2) 0)
          ((vitRun infoLen L bmb m).pm.getD (32 + s / 2) 0)
          (bmb.getD (4 * (vitRun infoLen L bmb m).n + labels.getD (s / 2) 0) 0)
          (-(bmb.getD (4 * (vitRun infoLen L bmb m).n + labels.getD (s / 2) 0) 0))
        omega
      · have hc := ACS_metric_cases ((vitRun infoLen L bmb m).pm.getD (s / 2) 0)
          ((vitRun infoLen L bmb m).pm.getD (32 + s / 2) 0)
          (-(bmb.getD (4 * (vitRun infoLen L bmb m).n + labels.getD (s / 2) 0) 0))
          (bmb.getD (4 * (vitRun infoLen L bmb m).n + labels.getD (s / 2) 0) 0)
        omega
    · omega

/-- C8 amended: on every call of the decoder, every stored path metric is
non-negative after every recursion step (so the `(unsigned)` casts in `ACS`
are value-preserving), and is bounded by `31 * step`; the metrics are not
confined to the 9-bit range `[0, 511]` — see the counterexample. -/
theorem path_metric_range_amended (infoLen codeLen L : Nat) (si1 : Nat → Int)
    (m s : Nat) :
    0 ≤ (vitRun infoLen L (bmBuff infoLen (dePunct codeLen si1)) m).pm.getD s 0 ∧
    (vitRun infoLen L (bmBuff infoLen (dePunct codeLen si1)) m).pm.getD s 0 ≤
      31 * m :=
  vitRun_pm_bounds infoLen L _ (fun j => bmBuff_getD_bounds infoLen _ j) m s

/-- C8 counterexample: the valid call `infoLen = 18`, `codeLen = 24`,
`L = 6` with all soft samples `127` (inside the signed 8-bit range) drives
the path metric of state 0 to 527 > 511 after recursion step 18 of the
`numStep = 30` steps: the stored metrics do not remain within the 9-bit
range `[0, 511]`. -/
theorem path_metric_range_ce :
    (6 : Nat) ≤ 6 ∧ 6 ≤ 18 ∧ 24 % 2 = 0 ∧ 3 * (24 / 2) = 2 * 18 ∧
    18 < 18 + 2 * 6 ∧
    511 < (vitRun 18 6 (bmBuff 18 (dePunct 24 (fun _ => 127))) 18).pm.getD 0 0 := by
  refine ⟨by decide, by decide, by decide, by decide, by decide, by decide⟩

/-! ### C9: normalization is a no-op -/

/-- With the offset literal 0 of line 277, the butterfly equals the butterfly
of the normalization-free variant. -/
theorem butterfly_offs_zero (bmb : List Int) (n : Nat) (pmOld : List Int) :
    butterfly bmb n pmOld 0 = butterflyNN bmb n pmOld := by
  funext s
  simp only [butterfly, butterflyNN, sub_zero]

/-- The recursion with `pmOffs = 0` and the `normAlert` bookkeeping agrees,
component by component, with the variant that has both removed. -/
theorem vitRun_NN_agree (infoLen L : Nat) (bmb : List Int) :
    ∀ m, (vitRun infoLen L bmb m).pm = (vitRunNN infoLen L bmb m).pm ∧
      (vitRun infoLen L bmb m).sm = (vitRunNN infoLen L bmb m).sm ∧
      (vitRun infoLen L bmb m).n = (vitRunNN infoLen L bmb m).n ∧
      (vitRun infoLen L bmb m).writePnt = (vitRunNN infoLen L bmb m).writePnt := by
  intro m
  induction m with
  | zero => exact ⟨rfl, rfl, rfl, rfl⟩
  | succ m ih =>
    obtain ⟨h1, h2, h3, h4⟩ := ih
    simp only [vitRun, vitRunNN, vitStep, vitStepNN, h1, h2, h3, h4,
      butterfly_offs_zero]
    refine ⟨?_, ?_, ?_, ?_⟩ <;> first | rfl | trivial

/-- C9: the path-metric offset applied when reading old metrics is 0 in every
recursion step (the `normAlert` flag is computed but never consumed), so
every component of the recursion state — and therefore the decoder's entire
output — is identical to the variant with the `normAlert` computation and
the offset subtraction removed entirely. -/
theorem normalization_noop (infoLen codeLen L : Nat) (si1 : Nat → Int)
    (data0 : List Nat) :
    (∀ m,
      (vitRun infoLen L (bmBuff infoLen (dePunct codeLen si1)) m).pm =
        (vitRunNN infoLen L (bmBuff infoLen (dePunct codeLen si1)) m).pm ∧
      (vitRun infoLen L (bmBuff infoLen (dePunct codeLen si1)) m).sm =
        (vitRunNN infoLen L (bmBuff infoLen (dePunct codeLen si1)) m).sm) ∧
    viterbi infoLen codeLen si1 L data0 = viterbiNN infoLen codeLen si1 L data0 := by
  have h := vitRun_NN_agree infoLen L (bmBuff infoLen (dePunct codeLen si1))
  refine ⟨fun m => ⟨(h m).1, (h m).2.1⟩, ?_⟩
  simp only [viterbi, viterbiNN]
  rw [(h (infoLen + 2 * L)).1, (h (infoLen + 2 * L)).2.1]

/-! ### Survivor-memory machinery -/

/-- Reading a three-part splice: below `w` and above `w + mid.length` the
underlying list shows through, in between the spliced row shows through. -/
theorem getD_splice {α : Type} (l mid : List α) (w : Nat) (d : α)
    (hw : w + mid.length ≤ l.length) (i : Nat) :
    (l.take w ++ (mid ++ l.drop (w + mid.length))).getD i d =
      if i < w then l.getD i d
      else if i < w + mid.length then mid.getD (i - w) d
      else l.getD i d := by
  have htk : (l.take w).length = w := by
    rw [List.length_take]
    omega
  rw [List.getD_eq_getElem?_getD, List.getElem?_append, htk]
  split_ifs with h1 h2
  · rw [List.getElem?_take, if_pos h1, List.getD_eq_getElem?_getD]
  · rw [List.getElem?_append, if_pos (by omega), List.getD_eq_getElem?_getD]
  · rw [List.getElem?_append, if_neg (by omega), List.getElem?_drop,
      show w + mid.length + (i - w - mid.length) = i from by omega,
      List.getD_eq_getElem?_getD]

/-- The survivor write pointer at the start of step `m` is
`64 * max(0, m - (L + 6))`. -/
theorem vitRun_writePnt (infoLen L : Nat) (bmb : List Int) :
    ∀ m, (vitRun infoLen L bmb m).writePnt = 64 * (m - (L + 6)) := by
  intro m
  induction m with
  | zero => simp [vitRun, vitInit]
  | succ m ih =>
    show (vitStep infoLen L bmb m (vitRun infoLen L bmb m)).writePnt = _
    simp only [vitStep, ih]
    split_ifs with h <;> omega

/-- The survivor memory keeps its allocated size `traceLen * 64` through the
first `numStep` steps. -/
theorem vitRun_sm_length (infoLen L : Nat) (bmb : List Int) (h0 : 0 < infoLen)
    (h6 : 6 ≤ L) :
    ∀ m, m ≤ infoLen + 2 * L →
      (vitRun infoLen L bmb m).sm.length = (infoLen + L - 6) * 64 := by
  intro m
  induction m with
  | zero => simp [vitRun, vitInit]
  | succ m ih =>
    intro hm
    have ihm := ih (by omega)
    show (vitStep infoLen L bmb m (vitRun infoLen L bmb m)).sm.length = _
    simp only [vitStep, List.length_append, List.length_take, List.length_drop,
      List.length_map, List.length_range, ihm, vitRun_writePnt]
    omega

/-- Variant of `getD_splice` matching the left-associated append of
`vitStep` with a 64-entry row. -/
theorem getD_splice64 {α : Type} (l mid : List α) (w : Nat) (d : α)
    (h64 : mid.length = 64) (hw : w + 64 ≤ l.length) (i : Nat) :
    ((l.take w ++ mid) ++ l.drop (w + 64)).getD i d =
      if i < w then l.getD i d
      else if i < w + 64 then mid.getD (i - w) d
      else l.getD i d := by
  have h := getD_splice l mid w d (by omega) i
  rw [h64] at h
  rw [List.append_assoc]
  exact h

/-- The survivor row has 64 entries. -/
theorem survRow_length (infoLen L : Nat) (bmb : List Int) (m : Nat) :
    (survRow infoLen L bmb m).length = 64 := by
  simp [survRow]

/-- Entry `s` of the survivor row of step `m`. -/
theorem survRow_getD (infoLen L : Nat) (bmb : List Int) (m s : Nat) :
    (survRow infoLen L bmb m).getD s 0 =
      if s < 64 then
        (butterfly bmb (vitRun infoLen L bmb m).n (vitRun infoLen L bmb m).pm 0 s).2
      else 0 := by
  rw [survRow, List.map_map, getD_map_range]
  rfl

/-- Survivor bits are 0 or 1. -/
theorem butterfly_snd_le_one (bmb : List Int) (n : Nat) (pmOld : List Int)
    (offs : Int) (s : Nat) : (butterfly bmb n pmOld offs s).2 ≤ 1 := by
  simp only [butterfly]
  split_ifs <;> apply ACS_surv_le_one

/-- Rows of the survivor row are 0 or 1. -/
theorem survRow_getD_le_one (infoLen L : Nat) (bmb : List Int) (m s : Nat) :
    (survRow infoLen L bmb m).getD s 0 ≤ 1 := by
  rw [survRow_getD]
  split_ifs
  · apply butterfly_snd_le_one
  · omega

/-- Content of the survivor memory after `m` recursion steps: cell
`(r, s)` holds the survivor bit of step `r + L + 6` once that step has run;
before that, row 0 (the warm-up region repeatedly overwritten while
`writePnt` is parked) holds the most recent step, and unwritten cells hold
the initial value 0. -/
theorem vitRun_sm_getD (infoLen L : Nat) (bmb : List Int) (h0 : 0 < infoLen)
    (h6 : 6 ≤ L) :
    ∀ m, m ≤ infoLen + 2 * L → ∀ r s, r < infoLen + L - 6 → s < 64 →
      (vitRun infoLen L bmb m).sm.getD (64 * r + s) 0 =
        if r + (L + 6) < m then (survRow infoLen L bmb (r + (L + 6))).getD s 0
        else if r = 0 ∧ 0 < m ∧ m ≤ L + 6 then
          (survRow infoLen L bmb (m - 1)).getD s 0
        else 0 := by
  intro m
  induction m with
  | zero =>
    intro _ r s hr hs
    simp only [vitRun, vitInit]
    rw [getD_replicate, if_pos (by omega), if_neg (by omega), if_neg (by omega)]
  | succ m ih =>
    intro hm1 r s hr hs
    have hm : m ≤ infoLen + 2 * L := by omega
    have hw := vitRun_writePnt infoLen L bmb m
    have hlen := vitRun_sm_length infoLen L bmb h0 h6 m hm
    show (vitStep infoLen L bmb m (vitRun infoLen L bmb m)).sm.getD _ _ = _
    simp only [vitStep]
    rw [hw]
    rw [getD_splice64 _ _ _ _ (by simp) (by rw [hlen]; omega)]
    rcases Nat.lt_trichotomy r (m - (L + 6)) with hlt | heq | hgt
    · rw [if_pos (by omega), ih hm r s hr hs, if_pos (by omega), if_pos (by omega)]
    · rw [if_neg (by omega), if_pos (by omega),
        show 64 * r + s - 64 * (m - (L + 6)) = s from by omega]
      have hmid : (((List.range 64).map
          (butterfly bmb (vitRun infoLen L bmb m).n (vitRun infoLen L bmb m).pm 0)).map
          Prod.snd) = survRow infoLen L bmb m := rfl
      rw [hmid]
      by_cases hml : L + 6 ≤ m
      · rw [if_pos (by omega), show r + (L + 6) = m from by omega]
      · rw [if_neg (by omega), if_pos ⟨by omega, by omega, by omega⟩,
          Nat.add_sub_cancel]
    · rw [if_neg (by omega), if_neg (by omega), ih hm r s hr hs,
        if_neg (by omega), if_neg (by omega), if_neg (by omega), if_neg (by omega)]

/-- Recursion state at the end of the `numStep = infoLen + 2L` Viterbi
steps of a `viterbi` call. -/
def finState (infoLen codeLen L : Nat) (si1 : Nat → Int) : VitState :=
  vitRun infoLen L (bmBuff infoLen (dePunct codeLen si1)) (infoLen + 2 * L)

/-- The decoder is the traceback run over the final recursion state. -/
theorem viterbi_eq_tbRun (infoLen codeLen L : Nat) (si1 : Nat → Int)
    (data0 : List Nat) :
    viterbi infoLen codeLen si1 L data0 =
      tbRun infoLen L (infoLen + L - 6) (finState infoLen codeLen L si1).sm
        (bestState (finState infoLen codeLen L si1).pm) data0
        (infoLen + L - 6) := rfl

/-- The best-state scan returns a state index below 64. -/
theorem bestState_lt_64 (pm : List Int) : bestState pm < 64 := by
  have key : ∀ (l : List Nat) (acc : Int × Nat), (∀ x ∈ l, x < 64) →
      acc.2 < 64 →
      ((l.foldl (fun acc s => if pm.getD s 0 > acc.1 then (pm.getD s 0, s) else acc)
        acc).2 < 64) := by
    intro l
    induction l with
    | nil => intro acc _ h; exact h
    | cons a l ihl =>
      intro acc hmem hacc
      simp only [List.foldl_cons]
      apply ihl
      · intro x hx
        exact hmem x (List.mem_cons_of_mem a hx)
      · split_ifs
        · exact hmem a (List.mem_cons_self a l)
        · exact hacc
  exact key (List.range 64) (0, 0) (fun x hx => List.mem_range.mp hx) (by norm_num)

/-- Every survivor-memory entry is 0 or 1 at every step. -/
theorem vitRun_sm_mem_le_one (infoLen L : Nat) (bmb : List Int) :
    ∀ m x, x ∈ (vitRun infoLen L bmb m).sm → x ≤ 1 := by
  intro m
  induction m with
  | zero =>
    intro x hx
    simp only [vitRun, vitInit] at hx
    rw [List.eq_of_mem_replicate hx]
    omega
  | succ m ih =>
    intro x hx
    simp only [vitRun, vitStep, List.mem_append] at hx
    rcases hx with (hx | hx) | hx
    · exact ih x (List.mem_of_mem_take hx)
    · simp only [List.map_map, List.mem_map, List.mem_range] at hx
      obtain ⟨s, _, hsx⟩ := hx
      rw [← hsx]
      apply butterfly_snd_le_one
    · exact ih x (List.mem_of_mem_drop hx)

/-- Bounded reads from a 0/1 list. -/
theorem getD_le_one_of_mem {l : List Nat} (h : ∀ x ∈ l, x ≤ 1) (j : Nat) :
    l.getD j 0 ≤ 1 := by
  rcases Nat.lt_or_ge j l.length with hj | hj
  · rw [List.getD_eq_getElem _ _ hj]
    exact h _ (List.getElem_mem hj)
  · rw [List.getD_eq_default _ _ hj]
    omega

/-- The traceback state stays a valid trellis state (below 64) whenever the
survivor memory holds only 0/1 bits. -/
theorem tbRun_s_lt (infoLen L T : Nat) (sm : List Nat) (s0 : Nat)
    (data0 : List Nat) (hsm : ∀ j, sm.getD j 0 ≤ 1) (hs0 : s0 < 64) :
    ∀ k, (tbRun infoLen L T sm s0 data0 k).s < 64 := by
  intro k
  induction k with
  | zero => exact hs0
  | succ k ih =>
    show (tbStep infoLen L T sm k (tbRun infoLen L T sm s0 data0 k)).s < 64
    simp only [tbStep]
    have hbit := hsm ((T - 1 - k) * 64 + (tbRun infoLen L T sm s0 data0 k).s)
    split_ifs <;> simp only [] <;> omega

/-! ### C10: survivor-memory write/read alignment and bounds -/

/-- C10: for a valid call, the survivor write row of recursion step `k` is
`max(0, k - (L+6))` (so each of the 64 cells written in step `k` is inside
the `traceLen * 64` table for `k < numStep`); the survivor memory keeps its
allocated size; after all `numStep` steps row `r` holds exactly the survivor
decisions of step `r + L + 6`; the last step `numStep - 1` writes row
`traceLen - 1`, the very row where the traceback starts reading
(`readPnt = (traceLen - 1 - k) * 64`); and every traceback read index is
inside the table. -/
theorem survivor_memory_alignment (infoLen codeLen L : Nat) (si1 : Nat → Int)
    (data0 : List Nat) (h0 : 0 < infoLen) (h6 : 6 ≤ L) (hLi : L ≤ infoLen) :
    (∀ m, (vitRun infoLen L (bmBuff infoLen (dePunct codeLen si1)) m).writePnt =
      64 * (m - (L + 6))) ∧
    (∀ m, m < infoLen + 2 * L →
      64 * (m - (L + 6)) + 64 ≤ (infoLen + L - 6) * 64) ∧
    (finState infoLen codeLen L si1).sm.length = (infoLen + L - 6) * 64 ∧
    (∀ r s, r < infoLen + L - 6 → s < 64 →
      (finState infoLen codeLen L si1).sm.getD (64 * r + s) 0 =
        (survRow infoLen L (bmBuff infoLen (dePunct codeLen si1))
          (r + (L + 6))).getD s 0) ∧
    (vitRun infoLen L (bmBuff infoLen (dePunct codeLen si1))
      (infoLen + 2 * L - 1)).writePnt = ((infoLen + L - 6) - 1) * 64 ∧
    (∀ k, k ≤ infoLen + L - 6 →
      (tbRun infoLen L (infoLen + L - 6) (finState infoLen codeLen L si1).sm
        (bestState (finState infoLen codeLen L si1).pm) data0 k).s < 64) ∧
    (∀ k, k < infoLen + L - 6 →
      ((infoLen + L - 6) - 1 - k) * 64 +
        (tbRun infoLen L (infoLen + L - 6) (finState infoLen codeLen L si1).sm
          (bestState (finState infoLen codeLen L si1).pm) data0 k).s <
        (infoLen + L - 6) * 64) := by
  have hwp := vitRun_writePnt infoLen L (bmBuff infoLen (dePunct codeLen si1))
  have hslt : ∀ k, (tbRun infoLen L (infoLen + L - 6)
      (finState infoLen codeLen L si1).sm
      (bestState (finState infoLen codeLen L si1).pm) data0 k).s < 64 := by
    apply tbRun_s_lt
    · exact getD_le_one_of_mem
        (vitRun_sm_mem_le_one infoLen L _ (infoLen + 2 * L))
    · exact bestState_lt_64 _
  refine ⟨hwp, fun m hm => by omega, ?_, ?_, ?_, fun k _ => hslt k, fun k hk => ?_⟩
  · exact vitRun_sm_length infoLen L _ h0 h6 _ (le_refl _)
  · intro r s hr hs
    unfold finState
    rw [vitRun_sm_getD infoLen L _ h0 h6 (infoLen + 2 * L) (le_refl _) r s hr hs,
      if_pos (by omega)]
  · rw [hwp]
    omega
  · have := hslt k
    omega

/-- Witness for C10 at the concrete valid call
`infoLen = 6, codeLen = 8, L = 6` with an all-zero soft input. -/
theorem survivor_memory_alignment_witness :
    (0 : Nat) < 6 ∧ (6 : Nat) ≤ 6 ∧
    (finState 6 8 6 (fun _ => 0)).sm.length = (6 + 6 - 6) * 64 ∧
    (vitRun 6 6 (bmBuff 6 (dePunct 8 (fun _ => 0))) (6 + 2 * 6 - 1)).writePnt =
      ((6 + 6 - 6) - 1) * 64 :=
  ⟨by decide, by decide,
   (survivor_memory_alignment 6 8 6 (fun _ => 0) (List.replicate 6 0)
     (by decide) (by decide) (by decide)).2.2.1,
   (survivor_memory_alignment 6 8 6 (fun _ => 0) (List.replicate 6 0)
     (by decide) (by decide) (by decide)).2.2.2.2.1⟩

/-! ### Traceback write characterization -/

/-- Setting one position leaves other positions unchanged. -/
theorem getD_set_ne {α : Type} (l : List α) (p q : Nat) (a d : α)
    (h : p ≠ q) : (l.set p a).getD q d = l.getD q d := by
  rw [List.getD_eq_getElem?_getD, List.getElem?_set_ne h,
    ← List.getD_eq_getElem?_getD]

/-- Setting an in-range position stores the value. -/
theorem getD_set_self {α : Type} (l : List α) (p : Nat) (a d : α)
    (h : p < l.length) : (l.set p a).getD p d = a := by
  rw [List.getD_eq_getElem?_getD, List.getElem?_set_self h]
  rfl

/-- The circular write position stays inside the output buffer. -/
theorem tbPos_lt (infoLen L : Nat) (h0 : 0 < infoLen) (h6 : 6 ≤ L)
    (hLi : L ≤ infoLen) (i : Nat) (hi : i ≤ infoLen) :
    tbPos infoLen L i < infoLen := by
  unfold tbPos
  split_ifs <;> omega

/-- The circular write position visits distinct indices. -/
theorem tbPos_inj (infoLen L : Nat) (h6 : 6 ≤ L) (hLi : L ≤ infoLen)
    (i1 i2 : Nat) (h1 : i1 < infoLen) (h2 : i2 < infoLen)
    (h : tbPos infoLen L i1 = tbPos infoLen L i2) : i1 = i2 := by
  unfold tbPos at h
  split_ifs at h <;> omega

/-- One decrement of the circular write position. -/
theorem tbPos_succ (infoLen L : Nat) (h0 : 0 < infoLen) (h6 : 6 ≤ L)
    (hLi : L ≤ infoLen) (i : Nat) (hi : i < infoLen) :
    tbPos infoLen L (i + 1) =
      if tbPos infoLen L i = 0 then infoLen - 1 else tbPos infoLen L i - 1 := by
  unfold tbPos
  split_ifs <;> omega

/-- Complete characterization of the traceback loop state after `k` steps:
the data pointer follows the circular position of the number of released
bits, the write log lists one entry per release — at step `L - 6 + i` the
`i`-th released bit goes to position `tbPos i` — and the data buffer holds
each released bit at its position. -/
theorem tbRun_characterization (infoLen L T : Nat) (sm : List Nat) (s0 : Nat)
    (data0 : List Nat) (h0 : 0 < infoLen) (h6 : 6 ≤ L) (hLi : L ≤ infoLen)
    (hT : T = infoLen + L - 6) (hdl : data0.length = infoLen) :
    ∀ k, k ≤ T →
      (tbRun infoLen L T sm s0 data0 k).dataPnt =
        tbPos infoLen L (k - (L - 6)) ∧
      (tbRun infoLen L T sm s0 data0 k).writes =
        (List.range (k - (L - 6))).map
          (fun i => (L - 6 + i, tbPos infoLen L i,
            tbBit infoLen L T sm s0 data0 (L - 6 + i))) ∧
      (tbRun infoLen L T sm s0 data0 k).data.length = infoLen ∧
      (∀ i, i < k - (L - 6) →
        (tbRun infoLen L T sm s0 data0 k).data.getD (tbPos infoLen L i) 0 =
          tbBit infoLen L T sm s0 data0 (L - 6 + i)) := by
  intro k
  induction k with
  | zero =>
    intro _
    refine ⟨?_, ?_, hdl, ?_⟩
    · show L - 1 = tbPos infoLen L (0 - (L - 6))
      unfold tbPos
      rw [Nat.zero_sub, if_pos (by omega)]
      omega
    · show ([] : List (Nat × Nat × Nat)) = _
      rw [Nat.zero_sub, List.range_zero, List.map_nil]
    · intro i hi
      exact absurd hi (by omega)
  | succ k ih =>
    intro hk1
    have hk : k ≤ T := by omega
    obtain ⟨ihP, ihW, ihL, ihD⟩ := ih hk
    by_cases hrel : L - 6 ≤ k
    · have hj : k + 1 - (L - 6) = k - (L - 6) + 1 := by omega
      have hjlt : k - (L - 6) < infoLen := by omega
      have hstep : tbRun infoLen L T sm s0 data0 (k + 1) =
          tbStep infoLen L T sm k (tbRun infoLen L T sm s0 data0 k) := rfl
      have hbit : sm.getD ((T - 1 - k) * 64 +
          (tbRun infoLen L T sm s0 data0 k).s) 0 =
          tbBit infoLen L T sm s0 data0 k := rfl
      rw [hstep]
      simp only [tbStep, if_pos (And.intro h6 hrel), hbit]
      refine ⟨?_, ?_, ?_, ?_⟩
      · rw [ihP, hj, tbPos_succ infoLen L h0 h6 hLi _ hjlt]
      · rw [ihW, hj, List.range_succ, List.map_append, List.map_cons,
          List.map_nil, ihP]
        rw [show L - 6 + (k - (L - 6)) = k from by omega]
      · rw [List.length_set, ihL]
      · intro i hi
        rw [hj] at hi
        rcases Nat.lt_or_ge i (k - (L - 6)) with hilt | hige
        · rw [ihP, getD_set_ne _ _ _ _ _
            (fun hc => by
              have := tbPos_inj infoLen L h6 hLi _ _ hjlt (by omega) hc
              omega),
            ihD i hilt]
        · have hieq : i = k - (L - 6) := by omega
          have hlt2 : tbPos infoLen L (k - (L - 6)) <
              (tbRun infoLen L T sm s0 data0 k).data.length := by
            rw [ihL]
            exact tbPos_lt infoLen L h0 h6 hLi _ (by omega)
          rw [hieq, ihP, getD_set_self _ _ _ _ hlt2,
            show L - 6 + (k - (L - 6)) = k from by omega]
    · have hj0 : k + 1 - (L - 6) = 0 := by omega
      have hj0' : k - (L - 6) = 0 := by omega
      have hstep : tbRun infoLen L T sm s0 data0 (k + 1) =
          tbStep infoLen L T sm k (tbRun infoLen L T sm s0 data0 k) := rfl
      have hcond : ¬(6 ≤ L ∧ L - 6 ≤ k) := fun hc => hrel hc.2
      rw [hstep]
      simp only [tbStep, if_neg hcond]
      rw [hj0]
      rw [hj0'] at ihP ihW ihD
      exact ⟨ihP, ihW, ihL, ihD⟩

/-- The circular write position is an involution on `0..infoLen-1`. -/
theorem tbPos_invol (infoLen L : Nat) (h6 : 6 ≤ L) (hLi : L ≤ infoLen)
    (x : Nat) (hx : x < infoLen) :
    tbPos infoLen L (tbPos infoLen L x) = x := by
  unfold tbPos
  split_ifs <;> omega

/-- The write positions of the `infoLen` releases are a permutation of
`0..infoLen-1`: every output position is written exactly once. -/
theorem tbPos_map_perm (infoLen L : Nat) (h0 : 0 < infoLen) (h6 : 6 ≤ L)
    (hLi : L ≤ infoLen) :
    ((List.range infoLen).map (fun i => tbPos infoLen L i)).Perm
      (List.range infoLen) := by
  apply List.perm_of_nodup_nodup_toFinset_eq
  · refine List.Nodup.map_on ?_ (List.nodup_range infoLen)
    intro x hx y hy hxy
    exact tbPos_inj infoLen L h6 hLi x y (List.mem_range.mp hx)
      (List.mem_range.mp hy) hxy
  · exact List.nodup_range infoLen
  · ext x
    simp only [List.mem_toFinset, List.mem_map, List.mem_range]
    constructor
    · rintro ⟨i, hi, rfl⟩
      exact tbPos_lt infoLen L h0 h6 hLi i (by omega)
    · intro hx
      exact ⟨tbPos infoLen L x,
        tbPos_lt infoLen L h0 h6 hLi x (by omega),
        tbPos_invol infoLen L h6 hLi x hx⟩

/-! ### C2: output cardinality and order -/

/-- C2 amended (adds `L ≤ infoLen` to the validity conditions): the decoder
performs exactly `infoLen` data-buffer writes, one per traceback step
`L-6+i` (so the first `L-6` steps release nothing), the `i`-th released bit
is 0/1 and goes to position `tbPos i` — the circular index starting at `L-1`
and decrementing with wrap — the written positions are a permutation of
`0..infoLen-1` (each position exactly once), and the final buffer holds at
position `tbPos i` exactly the `i`-th released bit, i.e. the block in
natural order. -/
theorem output_cardinality_amended (infoLen codeLen L : Nat) (si1 : Nat → Int)
    (data0 : List Nat) (h0 : 0 < infoLen) (hev : codeLen % 2 = 0)
    (hc : 3 * (codeLen / 2) = 2 * infoLen) (h6 : 6 ≤ L) (hLi : L ≤ infoLen)
    (hdl : data0.length = infoLen) :
    (viterbi infoLen codeLen si1 L data0).writes =
      (List.range infoLen).map (fun i =>
        (L - 6 + i, tbPos infoLen L i,
          tbBit infoLen L (infoLen + L - 6) (finState infoLen codeLen L si1).sm
            (bestState (finState infoLen codeLen L si1).pm) data0 (L - 6 + i))) ∧
    (viterbi infoLen codeLen si1 L data0).writes.length = infoLen ∧
    (∀ w ∈ (viterbi infoLen codeLen si1 L data0).writes,
      w.2.2 ≤ 1 ∧ w.2.1 < infoLen ∧ L - 6 ≤ w.1) ∧
    ((viterbi infoLen codeLen si1 L data0).writes.map (fun w => w.2.1)).Perm
      (List.range infoLen) ∧
    (viterbi infoLen codeLen si1 L data0).data.length = infoLen ∧
    (∀ p, p < infoLen →
      (viterbi infoLen codeLen si1 L data0).data.getD p 0 ≤ 1) ∧
    (∀ i, i < infoLen →
      (viterbi infoLen codeLen si1 L data0).data.getD (tbPos infoLen L i) 0 =
        ((viterbi infoLen codeLen si1 L data0).writes.getD i (0, 0, 0)).2.2) := by
  have hchar := tbRun_characterization infoLen L (infoLen + L - 6)
    (finState infoLen codeLen L si1).sm
    (bestState (finState infoLen codeLen L si1).pm) data0 h0 h6 hLi rfl hdl
    (infoLen + L - 6) (le_refl _)
  obtain ⟨hP, hW, hL, hD⟩ := hchar
  have hrel : infoLen + L - 6 - (L - 6) = infoLen := by omega
  rw [hrel] at hW hD
  have hVW : (viterbi infoLen codeLen si1 L data0).writes =
      (List.range infoLen).map (fun i =>
        (L - 6 + i, tbPos infoLen L i,
          tbBit infoLen L (infoLen + L - 6) (finState infoLen codeLen L si1).sm
            (bestState (finState infoLen codeLen L si1).pm) data0
            (L - 6 + i))) := by
    rw [viterbi_eq_tbRun]
    exact hW
  have hVL : (viterbi infoLen codeLen si1 L data0).data.length = infoLen := by
    rw [viterbi_eq_tbRun]
    exact hL
  have hVD : ∀ i, i < infoLen →
      (viterbi infoLen codeLen si1 L data0).data.getD (tbPos infoLen L i) 0 =
        tbBit infoLen L (infoLen + L - 6) (finState infoLen codeLen L si1).sm
          (bestState (finState infoLen codeLen L si1).pm) data0 (L - 6 + i) := by
    intro i hi
    rw [viterbi_eq_tbRun]
    exact hD i hi
  have hbitle : ∀ k, tbBit infoLen L (infoLen + L - 6)
      (finState infoLen codeLen L si1).sm
      (bestState (finState infoLen codeLen L si1).pm) data0 k ≤ 1 := by
    intro k
    exact getD_le_one_of_mem
      (vitRun_sm_mem_le_one infoLen L _ (infoLen + 2 * L)) _
  refine ⟨hVW, ?_, ?_, ?_, hVL, ?_, ?_⟩
  · rw [hVW, List.length_map, List.length_range]
  · intro w hw
    rw [hVW] at hw
    simp only [List.mem_map, List.mem_range] at hw
    obtain ⟨i, hi, rfl⟩ := hw
    exact ⟨hbitle _, tbPos_lt infoLen L h0 h6 hLi i (by omega), by omega⟩
  · rw [hVW, List.map_map]
    have : ((fun w : Nat × Nat × Nat => w.2.1) ∘ (fun i =>
        (L - 6 + i, tbPos infoLen L i,
          tbBit infoLen L (infoLen + L - 6) (finState infoLen codeLen L si1).sm
            (bestState (finState infoLen codeLen L si1).pm) data0
            (L - 6 + i)))) = fun i => tbPos infoLen L i := rfl
    rw [this]
    exact tbPos_map_perm infoLen L h0 h6 hLi
  · intro p hp
    have hinv := tbPos_invol infoLen L h6 hLi p hp
    have := hVD (tbPos infoLen L p) (tbPos_lt infoLen L h0 h6 hLi p (by omega))
    rw [hinv] at this
    rw [this]
    exact hbitle _
  · intro i hi
    rw [hVD i hi, hVW, getD_map_range, if_pos hi]

/-- C2 counterexample: the call `infoLen = 3, codeLen = 4, L = 7` meets all
the validity conditions listed by the claim (`infoLen > 0`, consistent
puncture ratio, `L ≥ 6`), yet the three released bits are written to
positions 6, 5, 4 — all outside `0..infoLen-1` (the C code corrupts memory
there), and position 0 is never written. -/
theorem output_order_ce :
    (0 : Nat) < 3 ∧ (4 : Nat) % 2 = 0 ∧ 3 * (4 / 2) = 2 * 3 ∧ (6 : Nat) ≤ 7 ∧
    ((viterbi 3 4 (fun _ => 0) 7 [0, 0, 0]).writes.map (fun w => w.2.1)) =
      [6, 5, 4] ∧
    ¬ (∀ w ∈ (viterbi 3 4 (fun _ => 0) 7 [0, 0, 0]).writes, w.2.1 < 3) := by
  exact ⟨by decide, by decide, by decide, by decide, by decide, by decide⟩

/-- Witness for the amended C2 at the concrete valid call
`infoLen = 6, codeLen = 8, L = 6`. -/
theorem output_cardinality_amended_witness :
    (0 : Nat) < 6 ∧ (8 : Nat) % 2 = 0 ∧ 3 * (8 / 2) = 2 * 6 ∧ (6 : Nat) ≤ 6 ∧
    (List.replicate 6 0).length = 6 ∧
    (viterbi 6 8 (fun _ => 0) 6 (List.replicate 6 0)).writes.length = 6 ∧
    ((viterbi 6 8 (fun _ => 0) 6 (List.replicate 6 0)).writes.map
      (fun w => w.2.1)).Perm (List.range 6) :=
  ⟨by decide, by decide, by decide, by decide, by decide,
   (output_cardinality_amended 6 8 6 (fun _ => 0) (List.replicate 6 0)
     (by decide) (by decide) (by decide) (by decide) (by decide)
     (by decide)).2.1,
   (output_cardinality_amended 6 8 6 (fun _ => 0) (List.replicate 6 0)
     (by decide) (by decide) (by decide) (by decide) (by decide)
     (by decide)).2.2.2.1⟩

/-! ### C7: the all-zero-input tie scenario -/

/-- Reads of an all-zero integer list are zero. -/
theorem getD_zero_of_mem {l : List Int} (h : ∀ x ∈ l, x = 0) (j : Nat) :
    l.getD j 0 = 0 := by
  rcases Nat.lt_or_ge j l.length with hj | hj
  · rw [List.getD_eq_getElem _ _ hj]
    exact h _ (List.getElem_mem hj)
  · rw [List.getD_eq_default _ _ hj]

/-- De-puncturing an all-zero input stream yields only zeros. -/
theorem dePunctFrom_zero_mem (si1 : Nat → Int) (hz : ∀ i, si1 i = 0) :
    ∀ iters n x, x ∈ dePunctFrom si1 n iters → x = 0 := by
  intro iters
  induction iters with
  | zero => intro n x hx; simp [dePunctFrom] at hx
  | succ it ih =>
    intro n x hx
    simp only [dePunctFrom, List.mem_cons] at hx
    rcases hx with h | h | h | h
    · rw [h, hz]
    · rw [h, hz]
    · exact h
    · exact ih (n + 2) x h

/-- The branch metric of a zero soft pair is zero for every label. -/
theorem branchMetric_zero_soft (c : Nat) : branchMetric 0 0 c = 0 := by
  simp only [branchMetric, mul_zero, add_zero, zero_add]
  decide

/-- The branch-metric buffer of an all-zero stream contains only zeros. -/
theorem bmBuffFrom_zero_mem (si2 : List Int) (hz : ∀ x ∈ si2, x = 0) :
    ∀ iters t x, x ∈ bmBuffFrom si2 t iters → x = 0 := by
  intro iters
  induction iters with
  | zero => intro t x hx; simp [bmBuffFrom] at hx
  | succ it ih =>
    intro t x hx
    simp only [bmBuffFrom, List.cons_append, List.nil_append, List.mem_cons] at hx
    have h1 : si2.getD (2 * t) 0 = 0 := getD_zero_of_mem hz _
    have h2 : si2.getD (2 * t + 1) 0 = 0 := getD_zero_of_mem hz _
    rcases hx with h | h | h | h | h
    · rw [h, h1, h2, branchMetric_zero_soft]
      rfl
    · rw [h, h1, h2, branchMetric_zero_soft]
    · rw [h, h1, h2, branchMetric_zero_soft]
      rfl
    · rw [h, h1, h2, branchMetric_zero_soft]
    · exact ih (t + 1) x h

/-- A butterfly fed zero metrics ties and selects survivor 1 with metric 0. -/
theorem butterfly_all_zero (bmb : List Int) (hb : ∀ j, bmb.getD j 0 = 0)
    (n s : Nat) : butterfly bmb n (List.replicate 64 0) 0 s = (0, 1) := by
  simp only [butterfly, sub_zero, hb]
  have hpm : ∀ q : Nat, (List.replicate 64 (0 : Int)).getD q 0 = 0 := by
    intro q
    rw [getD_replicate]
    split_ifs <;> rfl
  rw [hpm, hpm]
  split_ifs <;> simp [ACS]

/-- With an all-zero branch-metric buffer the path metrics stay all zero. -/
theorem vitRun_pm_all_zero (infoLen L : Nat) (bmb : List Int)
    (hb : ∀ j, bmb.getD j 0 = 0) :
    ∀ m, (vitRun infoLen L bmb m).pm = List.replicate 64 0 := by
  intro m
  induction m with
  | zero => rfl
  | succ m ih =>
    show (vitStep infoLen L bmb m (vitRun infoLen L bmb m)).pm = _
    simp only [vitStep, ih, List.map_map]
    rw [List.eq_replicate_iff]
    constructor
    · simp
    · intro b hb2
      simp only [List.mem_map, List.mem_range, Function.comp] at hb2
      obtain ⟨s, _, hs⟩ := hb2
      rw [butterfly_all_zero bmb hb _ s] at hs
      exact hs.symm

/-- With an all-zero branch-metric buffer every survivor row is all ones. -/
theorem survRow_all_zero (infoLen L : Nat) (bmb : List Int)
    (hb : ∀ j, bmb.getD j 0 = 0) (m s : Nat) (hs : s < 64) :
    (survRow infoLen L bmb m).getD s 0 = 1 := by
  rw [survRow_getD, if_pos hs, vitRun_pm_all_zero infoLen L bmb hb,
    butterfly_all_zero bmb hb]

/-- The best-state scan of an all-zero metric bank returns state 0. -/
theorem bestState_all_zero (pm : List Int) (hz : ∀ s, pm.getD s 0 = 0) :
    bestState pm = 0 := by
  have key : ∀ l : List Nat,
      (l.foldl (fun acc s => if pm.getD s 0 > acc.1 then (pm.getD s 0, s) else acc)
        ((0 : Int), (0 : Nat))) = (0, 0) := by
    intro l
    induction l with
    | nil => rfl
    | cons a l ihl =>
      simp only [List.foldl_cons, hz a]
      rw [if_neg (lt_irrefl 0)]
      exact ihl
  rw [bestState, key]

/-- C7 amended: with an all-zero soft-input array the best-state selector
picks state 0 (lowest index on the full tie of the 64 final metrics), but
the traceback yields an all-ONES decoded output: every ACS comparison ties,
the tie-break stores survivor 1 everywhere, and the released bits are those
survivor bits. -/
theorem all_zero_input_amended (infoLen codeLen L : Nat) (si1 : Nat → Int)
    (data0 : List Nat) (h0 : 0 < infoLen) (hev : codeLen % 2 = 0)
    (hc : 3 * (codeLen / 2) = 2 * infoLen) (h6 : 6 ≤ L) (hLi : L ≤ infoLen)
    (hdl : data0.length = infoLen) (hz : ∀ i, si1 i = 0) :
    bestState (finState infoLen codeLen L si1).pm = 0 ∧
    (viterbi infoLen codeLen si1 L data0).data = List.replicate infoLen 1 := by
  have hsi2 : ∀ x ∈ dePunct codeLen si1, x = 0 := fun x hx =>
    dePunctFrom_zero_mem si1 hz _ 0 x hx
  have hb : ∀ j, (bmBuff infoLen (dePunct codeLen si1)).getD j 0 = 0 :=
    fun j => getD_zero_of_mem
      (fun x hx => bmBuffFrom_zero_mem _ hsi2 infoLen 0 x hx) j
  have hpmz : (finState infoLen codeLen L si1).pm = List.replicate 64 0 :=
    vitRun_pm_all_zero infoLen L _ hb (infoLen + 2 * L)
  have hbs : bestState (finState infoLen codeLen L si1).pm = 0 := by
    rw [hpmz]
    apply bestState_all_zero
    intro s
    rw [getD_replicate]
    split_ifs <;> rfl
  refine ⟨hbs, ?_⟩
  have hchar := tbRun_characterization infoLen L (infoLen + L - 6)
    (finState infoLen codeLen L si1).sm
    (bestState (finState infoLen codeLen L si1).pm) data0 h0 h6 hLi rfl hdl
    (infoLen + L - 6) (le_refl _)
  obtain ⟨hP, hW, hL, hD⟩ := hchar
  have hrel : infoLen + L - 6 - (L - 6) = infoLen := by omega
  rw [hrel] at hD
  have hslt : ∀ k, (tbRun infoLen L (infoLen + L - 6)
      (finState infoLen codeLen L si1).sm
      (bestState (finState infoLen codeLen L si1).pm) data0 k).s < 64 :=
    tbRun_s_lt infoLen L _ _ _ _
      (getD_le_one_of_mem (vitRun_sm_mem_le_one infoLen L _ (infoLen + 2 * L)))
      (bestState_lt_64 _)
  have hbit1 : ∀ k, k < infoLen + L - 6 →
      tbBit infoLen L (infoLen + L - 6) (finState infoLen codeLen L si1).sm
        (bestState (finState infoLen codeLen L si1).pm) data0 k = 1 := by
    intro k hk
    have hr : infoLen + L - 6 - 1 - k < infoLen + L - 6 := by omega
    have hs := hslt k
    have hcell := vitRun_sm_getD infoLen L (bmBuff infoLen (dePunct codeLen si1))
      h0 h6 (infoLen + 2 * L) (le_refl _) (infoLen + L - 6 - 1 - k)
      ((tbRun infoLen L (infoLen + L - 6) (finState infoLen codeLen L si1).sm
        (bestState (finState infoLen codeLen L si1).pm) data0 k).s) hr hs
    rw [if_pos (by omega)] at hcell
    rw [show (vitRun infoLen L (bmBuff infoLen (dePunct codeLen si1))
      (infoLen + 2 * L)).sm = (finState infoLen codeLen L si1).sm from rfl]
      at hcell
    unfold tbBit
    rw [show (infoLen + L - 6 - 1 - k) * 64 = 64 * (infoLen + L - 6 - 1 - k) from
      Nat.mul_comm _ _]
    rw [hcell]
    exact survRow_all_zero infoLen L _ hb _ _ hs
  rw [List.eq_replicate_iff]
  constructor
  · rw [viterbi_eq_tbRun]
    exact hL
  · intro b hb2
    obtain ⟨p, hp, hpb⟩ := List.mem_iff_getElem.mp hb2
    have hplen : p < infoLen := by
      rw [viterbi_eq_tbRun] at hp
      rw [hL] at hp
      exact hp
    have hgd : (viterbi infoLen codeLen si1 L data0).data.getD p 0 = b := by
      rw [List.getD_eq_getElem _ _ hp, hpb]
    rw [← hgd]
    have hinv := tbPos_invol infoLen L h6 hLi p hplen
    have hD2 := hD (tbPos infoLen L p)
      (tbPos_lt infoLen L h0 h6 hLi p (by omega))
    rw [hinv] at hD2
    rw [viterbi_eq_tbRun, hD2]
    exact hbit1 _ (by
      have := tbPos_lt infoLen L h0 h6 hLi p (by omega)
      omega)

/-- C7 counterexample: the valid all-zero call `infoLen = 6, codeLen = 8,
`L = 6` decodes to all ones, not all zeros. -/
theorem all_zero_input_ce :
    (viterbi 6 8 (fun _ => 0) 6 (List.replicate 6 0)).data =
      [1, 1, 1, 1, 1, 1] ∧
    ¬ ((viterbi 6 8 (fun _ => 0) 6 (List.replicate 6 0)).data =
      List.replicate 6 0) :=
  ⟨by decide, by decide⟩

/-- Witness for the amended C7 at the same concrete call. -/
theorem all_zero_input_amended_witness :
    (0 : Nat) < 6 ∧ (8 : Nat) % 2 = 0 ∧ 3 * (8 / 2) = 2 * 6 ∧ (6 : Nat) ≤ 6 ∧
    (List.replicate 6 0).length = 6 ∧
    bestState (finState 6 8 6 (fun _ => 0)).pm = 0 ∧
    (viterbi 6 8 (fun _ => 0) 6 (List.replicate 6 0)).data =
      List.replicate 6 1 :=
  ⟨by decide, by decide, by decide, by decide, by decide,
   (all_zero_input_amended 6 8 6 (fun _ => 0) (List.replicate 6 0) (by decide)
     (by decide) (by decide) (by decide) (by decide) (by decide)
     (fun _ => rfl)).1,
   (all_zero_input_amended 6 8 6 (fun _ => 0) (List.replicate 6 0) (by decide)
     (by decide) (by decide) (by decide) (by decide) (by decide)
     (fun _ => rfl)).2⟩

/-! ### C1: noiseless round trip against the reference encoder -/

/-- Modelled from the spec: the 64-state tail-biting rate-1/2 encoder is an
external test fixture, not part of this repository; its branch labels are
taken to be consistent with the decoder's 32-entry `labels` table, exactly
as the spec requires.  For predecessor state `p` and input bit `b` the
branch label is `labels[p mod 32]`, with both code bits complemented when
exactly one of the state's top bit and `b` is set (this reproduces the
decoder trellis, where the upper butterfly branch `s00 -> s10` carries
`labels[s00]` and the complementary branches carry the complement label). -/
def encLabel (p b : Nat) : Nat :=
  labels.getD (p % 32) 0 ^^^ (3 * ((p / 32 + b) % 2))

/-- Modelled from the spec: the trellis transition shifts the new bit into
the low end of the 6-bit state, matching `s10 = s00 << 1`, `s11 = s10 | 1`
and the traceback reconstruction `(bit << 5) | (s >> 1)` of the decoder. -/
def encNext (p b : Nat) : Nat := (2 * p + b) % 64

/-- Modelled from the spec: tail-biting start state — the last 6 information
bits, so the encoder ends where it starts. -/
def encInit (u : List Nat) : Nat :=
  (u.drop (u.length - 6)).foldl (fun p b => encNext p b) 0

/-- Modelled from the spec: emit the two code bits of each branch, first
`c1 = label & 1`, then `c2 = label >> 1` (the label is `c2*2 + c1`). -/
def encodeGo (p : Nat) : List Nat → List Nat
  | [] => []
  | b :: rest =>
    let c := encLabel p b
    c % 2 :: c / 2 :: encodeGo (encNext p b) rest

/-- Modelled from the spec: tail-biting encoding of an information block. -/
def encode (u : List Nat) : List Nat := encodeGo (encInit u) u

/-- Modelled from the spec: the "110110" puncturing drops every third code
bit (indices 2 mod 3), the exact positions `dePunct` refills with zeros. -/
def punctured (code : List Nat) : List Nat :=
  ((List.range code.length).filter (fun j => j % 3 ≠ 2)).map
    (fun j => code.getD j 0)

/-- Modelled from the spec: map code bits to strong antipodal soft values,
`+100` for 1 and `-100` for 0. -/
def softOf (bits : List Nat) (i : Nat) : Int :=
  if i < bits.length then (if bits.getD i 0 = 1 then 100 else -100) else 0

/-- Bits of `x`, least significant first, as an information block. -/
def natBits (infoLen x : Nat) : List Nat :=
  (List.range infoLen).map (fun i => x / 2 ^ i % 2)

/-- A concrete noiseless round trip: the alternating 12-bit pattern 2730,
encoded by the modelled tail-biting encoder, punctured with "110110",
mapped to ±100 soft values and decoded with `L = 12`, is reconstructed
exactly. -/
theorem noiseless_round_trip_instance :
    (viterbi 12 16 (softOf (punctured (encode (natBits 12 2730)))) 12
      (List.replicate 12 0)).data = natBits 12 2730 := by decide
